import Mathlib

/-!
Verification development for the `mcpdoc` documentation-retrieval server
(`src/mcpdoc/main.py`).

Strings are modelled as `List Char` (`Str`).  Python `set` objects are
modelled as `Finset Str`.  The external collaborators (the `httpx`
transport, the filesystem, and the `markdownify` normalizer) are injected
through an `Env` record of functions, mirroring the way the Python code
receives them as library calls; a GET that raises one of the caught
exception classes is modelled as `Except.error msg`.

The relevant fragment of CPython's `urllib.parse.urlsplit` (scheme and
netloc extraction) is embedded below, since `extract_domain` delegates to
it.  The model covers inputs free of the WHATWG-stripped control
characters (leading/trailing C0 controls and embedded tab/CR/LF), which
`urlsplit` removes before parsing; all inputs appearing in the theorems
and counterexamples are of this form.

Error messages that interpolate a Python `set` (whose iteration order is
unspecified) are modelled as structured outcomes carrying the set itself;
every other piece of information in an outcome matches the data the
source interpolates into its message.
-/

abbrev Str := List Char

def str (s : String) : Str := s.toList

/-! ## Model of `urllib.parse.urlsplit` (scheme / netloc extraction) -/

/-- Characters CPython accepts inside a URL scheme (`scheme_chars`). -/
def schemeChars : Str :=
  str "abcdefghijklmnopqrstuvwxyzABCDEFGHIJKLMNOPQRSTUVWXYZ0123456789+-."

/-- Split a string at its first `':'`: `some (before, after)`, or `none`
when no colon occurs (models `url.find(':')`). -/
def splitAtColon : Str → Option (Str × Str)
  | [] => none
  | c :: cs =>
    if c = ':' then some ([], cs)
    else
      match splitAtColon cs with
      | some (b, a) => some (c :: b, a)
      | none => none

/-- Python `str.lower()` on the ASCII scheme characters. -/
def lowerStr (s : Str) : Str := s.map Char.toLower

/-- Scheme extraction of `urlsplit`: the part before the first `':'` is a
scheme when it is nonempty, starts with an ASCII letter, and consists of
scheme characters only; the scheme is lowercased.  Returns
`(scheme, rest)`. -/
def schemeSplit (url : Str) : Str × Str :=
  match splitAtColon url with
  | some (b, a) =>
    if b ≠ [] ∧ (b.headD ' ').isAlpha = true ∧ b.all (fun c => schemeChars.contains c) = true
    then (lowerStr b, a)
    else ([], url)
  | none => ([], url)

/-- A character that may occur in a netloc: `_splitnetloc` stops at the
first `'/'`, `'?'` or `'#'`. -/
def netlocChar (c : Char) : Bool := !(c == '/' || c == '?' || c == '#')

/-- Netloc extraction of `urlsplit`: when the remainder (after the scheme)
begins with `"//"`, the netloc runs up to the next `'/'`, `'?'` or `'#'`;
otherwise it is empty. -/
def netlocPart (rest : Str) : Str :=
  if rest.take 2 = str "//" then (rest.drop 2).takeWhile netlocChar else []

/-! ## `mcpdoc.main` pure helpers -/

/-- `extract_domain`: returns `"{scheme}://{netloc}/"` for the parsed URL. -/
def extract_domain (url : Str) : Str :=
  let p := schemeSplit url
  p.1 ++ str "://" ++ netlocPart p.2 ++ str "/"

/-- `_is_http_or_https`: `url.startswith(("http:", "https:"))`. -/
def _is_http_or_https (url : Str) : Bool :=
  (str "http:").isPrefixOf url || (str "https:").isPrefixOf url

/-! ## Model of `os.path` (POSIX) used by `_normalize_path` -/

/-- `posixpath.join(a, b)` for a single extra component. -/
def pathJoin (a b : Str) : Str :=
  if (str "/").isPrefixOf b then b
  else if a = [] ∨ (str "/").isSuffixOf a then a ++ b
  else a ++ str "/" ++ b

/-- One step of `posixpath.normpath`'s component loop.  The accumulator
holds the produced components in reverse order, so Python's
`new_comps[-1]` is the head and `append`/`pop` are `cons`/`tail`. -/
def normpathStep (initialSlashes : Bool) (acc : List Str) (comp : Str) : List Str :=
  if comp = [] ∨ comp = str "." then acc
  else if comp ≠ str ".."
      ∨ (initialSlashes = false ∧ acc = [])
      ∨ (acc.headD [] = str "..") ∧ acc ≠ [] then comp :: acc
  else
    match acc with
    | _ :: rest => rest
    | [] => []

/-- `posixpath.normpath`. -/
def normpath (path : Str) : Str :=
  if path = [] then str "."
  else
    let initialSlashes : Nat :=
      if (str "/").isPrefixOf path then
        if (str "//").isPrefixOf path ∧ ¬ (str "///").isPrefixOf path then 2 else 1
      else 0
    let comps := path.splitOn '/'
    let newComps := (comps.foldl (normpathStep (initialSlashes > 0)) []).reverse
    let joined := List.replicate initialSlashes '/' ++ List.intercalate (str "/") newComps
    if joined = [] then str "." else joined

/-- `posixpath.abspath` relative to an explicit working directory. -/
def abspath (cwd path : Str) : Str :=
  normpath (if (str "/").isPrefixOf path then path else pathJoin cwd path)

/-- `_normalize_path`: strips a leading `"file://"` (7 characters) and
resolves to an absolute path. -/
def _normalize_path (cwd path : Str) : Str :=
  if (str "file://").isPrefixOf path then abspath cwd (path.drop 7) else abspath cwd path

/-! ## Data model -/

/-- A `DocSource` entry: optional `name`, required `llms_txt`, optional
`description`. -/
structure DocSource where
  name : Option Str
  llms_txt : Str
  description : Option Str
deriving DecidableEq, Repr

/-- The mutable registry state captured by `create_server`'s closure:
`doc_sources` (the Python list), `domains` and `allowed_local_files`
(Python sets). -/
structure RegState where
  doc_sources : List DocSource
  domains : Finset Str
  allowed_local_files : Finset Str
deriving DecidableEq

/-- The injected external collaborators: working directory, filesystem
existence test, file reading (errors are the caught exception messages),
the `httpx` GET (after `raise_for_status`: `ok body`, or `error msg` for
the caught `HTTPStatusError`/`RequestError`), and `markdownify`. -/
structure Env where
  cwd : Str
  fsExists : Str → Bool
  readFile : Str → Except Str Str
  httpGet : Str → Except Str Str
  markdownify : Str → Str

/-- `create_server`: partitions sources, fail-fast checks local files,
builds the `domains` and `allowed_local_files` sets.  `allowed_domains`
is the (possibly empty, modelling `None`) extra-domains list; Python's
`if allowed_domains:` is falsy for both `None` and `[]`. -/
def create_server (env : Env) (doc_sources : List DocSource) (allowed_domains : List Str) :
    Except Str RegState :=
  let local_sources := doc_sources.filter (fun e => !(_is_http_or_https e.llms_txt))
  let remote_sources := doc_sources.filter (fun e => _is_http_or_https e.llms_txt)
  match local_sources.find? (fun e => !(env.fsExists (_normalize_path env.cwd e.llms_txt))) with
  | some e => .error (str "Local file not found: " ++ _normalize_path env.cwd e.llms_txt)
  | none =>
    let domains0 := (remote_sources.map (fun e => extract_domain e.llms_txt)).toFinset
    let domains :=
      if allowed_domains ≠ [] then
        if (str "*") ∈ allowed_domains then ({str "*"} : Finset Str)
        else domains0 ∪ allowed_domains.toFinset
      else domains0
    let allowed_local_files :=
      (local_sources.map (fun e => _normalize_path env.cwd e.llms_txt)).toFinset
    .ok ⟨doc_sources, domains, allowed_local_files⟩

/-! ## `fetch_docs` -/

/-- Outcome of one `fetch_docs` call.  `localNotAllowedRaised` is the
`raise ValueError(...)` (an exception escaping the tool function, its
message carrying the normalized path and the allow-set); every other
constructor is a returned string, carrying the data interpolated into
it. -/
inductive FetchOutcome where
  | localNotAllowedRaised (absPath : Str) (allowed : Finset Str)
  | readError (msg : Str)
  | originNotAllowed (allowed : Finset Str)
  | httpError (msg : Str)
  | ok (text : Str)
deriving DecidableEq

/-- A `fetch_docs` call together with its observable effects: whether an
HTTP GET was issued and whether a local file open was attempted. -/
structure FetchResult where
  outcome : FetchOutcome
  didGet : Bool
  didOpen : Bool
deriving DecidableEq

/-- `fetch_docs` over the captured registry state. -/
def fetch_docs (env : Env) (st : RegState) (url : Str) : FetchResult :=
  if _is_http_or_https url = false then
    let abs_path := _normalize_path env.cwd url
    if abs_path ∉ st.allowed_local_files then
      ⟨.localNotAllowedRaised abs_path st.allowed_local_files, false, false⟩
    else
      match env.readFile abs_path with
      | .ok content => ⟨.ok (env.markdownify content), false, true⟩
      | .error e => ⟨.readError e, false, true⟩
  else
    if (str "*") ∉ st.domains ∧ ¬ (∃ d ∈ st.domains, d.isPrefixOf url = true) then
      ⟨.originNotAllowed st.domains, false, false⟩
    else
      match env.httpGet url with
      | .ok body => ⟨.ok (env.markdownify body), true, false⟩
      | .error e => ⟨.httpError e, true, false⟩

/-! ## Index discovery (`query_external_docs_smart`, `list_external_docs`) -/

/-- Python whitespace test used by `str.strip()` and `\s`, restricted to
the ASCII whitespace occurring in the modelled inputs. -/
def isPySpace (c : Char) : Bool := c.isWhitespace

/-- `url.strip()`. -/
def pyStrip (s : Str) : Str :=
  ((s.dropWhile isPySpace).reverse.dropWhile isPySpace).reverse

/-- `url.rstrip(')')`. -/
def rstripParen (s : Str) : Str := (s.reverse.dropWhile (fun c => c == ')')).reverse

/-- The clean-up both discovery tools apply: `url.strip().rstrip(')')`. -/
def cleanUrl (s : Str) : Str := rstripParen (pyStrip s)

/-- `re.findall(r'href="([^"]*)"', content)`: scan left to right; at a
position starting with `href="` capture up to the next `'"'` (the match
fails when no closing quote remains); otherwise advance one character.
`fuel` bounds the recursion and is instantiated with the input length,
which every step strictly decreases. -/
def findHrefUrlsAux : Nat → Str → List Str
  | 0, _ => []
  | _ + 1, [] => []
  | fuel + 1, s@(_ :: cs) =>
    if (str "href=\"").isPrefixOf s then
      let rest := s.drop 6
      match rest.dropWhile (fun c => !(c == '"')) with
      | '"' :: after => rest.takeWhile (fun c => !(c == '"')) :: findHrefUrlsAux fuel after
      | _ => []
    else findHrefUrlsAux fuel cs

def findHrefUrls (s : Str) : List Str := findHrefUrlsAux s.length s

/-- A character matched by `[^\s\)\]]`. -/
def urlBodyChar (c : Char) : Bool := !(isPySpace c || c == ')' || c == ']')

/-- Try to match `https?://[^\s\)\]]+` at the start of `s`; on success
return the match and the remainder.  The optional `s` is greedy, with
the regex's backtracking to the bare `http://` alternative. -/
def matchHttpUrl (s : Str) : Option (Str × Str) :=
  let tryWith : Str → Option (Str × Str) := fun p =>
    if p.isPrefixOf s then
      let rest := s.drop p.length
      let body := rest.takeWhile urlBodyChar
      if body ≠ [] then some (p ++ body, rest.drop body.length) else none
    else none
  match tryWith (str "https://") with
  | some r => some r
  | none => tryWith (str "http://")

/-- `re.findall(r'https?://[^\s\)\]]+', content)`: non-overlapping scan. -/
def findTextUrlsAux : Nat → Str → List Str
  | 0, _ => []
  | _ + 1, [] => []
  | fuel + 1, s@(_ :: cs) =>
    match matchHttpUrl s with
    | some (m, rest) => m :: findTextUrlsAux fuel rest
    | none => findTextUrlsAux fuel cs

def findTextUrls (s : Str) : List Str := findTextUrlsAux s.length s

/-- Python `q in u` (substring containment). -/
def strContains (q : Str) : Str → Bool
  | [] => q.isPrefixOf []
  | l@(_ :: t) => q.isPrefixOf l || strContains q t

/-- The shared candidate filter of both discovery tools: clean each found
URL, keep it when it starts with `"http"`, is not yet present, and starts
with the index document's domain. -/
def buildAvailableUrls (llms_domain : Str) (found : List Str) : List Str :=
  found.foldl
    (fun acc u =>
      let url := cleanUrl u
      if (str "http").isPrefixOf url = true ∧ url ∉ acc then
        if llms_domain.isPrefixOf url = true then acc ++ [url] else acc
      else acc)
    []

/-- Result of `query_external_docs_smart`, with each constructor carrying
the data its message interpolates. -/
inductive SmartResult where
  | httpError (msg : Str)
  | noUrls (llms_txt_url : Str)
  | noMatch (query : Str) (shown : List Str) (truncated : Bool)
  | freeTextListing (llms_txt_url : Str) (urls : List Str)
  | securityError (target llms_domain : Str)
  | content (target : Str) (text : Str)
deriving DecidableEq

/-- The decision `query_external_docs_smart` reaches before any second
GET: either reply immediately, or fetch the selected target. -/
inductive SmartStep where
  | reply (r : SmartResult)
  | fetchTarget (target : Str)
deriving DecidableEq

/-- Candidate selection of `query_external_docs_smart`, stated over an
arbitrary candidate list: empty-candidates reply, path/URL-shaped query
matching (with the first 10 candidates shown on no match), the free-text
listing reply, and the same-domain re-check immediately before a target
is fetched. -/
def smart_select (llms_txt_url llms_domain query : Str) (available : List Str) : SmartStep :=
  if available = [] then .reply (.noUrls llms_txt_url)
  else if (str "/").isPrefixOf query = true ∨ (str "http").isPrefixOf query = true then
    match available.filter (fun u => strContains query u) with
    | [] => .reply (.noMatch query (available.take 10) (decide (available.length > 10)))
    | target :: _ =>
      if llms_domain.isPrefixOf target = false then .reply (.securityError target llms_domain)
      else .fetchTarget target
  else .reply (.freeTextListing llms_txt_url available)

/-- `query_external_docs_smart`: fetch the index, build the same-domain
candidate list, select, and fetch the selected target. -/
def query_external_docs_smart (env : Env) (llms_txt_url query : Str) : SmartResult :=
  match env.httpGet llms_txt_url with
  | .error e => .httpError e
  | .ok llms_content =>
    let llms_domain := extract_domain llms_txt_url
    let available :=
      buildAvailableUrls llms_domain (findHrefUrls llms_content ++ findTextUrls llms_content)
    match smart_select llms_txt_url llms_domain query available with
    | .reply r => r
    | .fetchTarget target =>
      match env.httpGet target with
      | .error e => .httpError e
      | .ok body => .content target (env.markdownify body)

/-- Result of `list_external_docs`. -/
inductive ListDocsResult where
  | httpError (msg : Str)
  | noUrls (llms_txt_url : Str)
  | listing (llms_txt_url llms_domain : Str) (urls : List Str)
deriving DecidableEq

/-- `list_external_docs`: fetch the index and return the full same-domain
candidate list (never fetches a candidate). -/
def list_external_docs (env : Env) (llms_txt_url : Str) : ListDocsResult :=
  match env.httpGet llms_txt_url with
  | .error e => .httpError e
  | .ok llms_content =>
    let llms_domain := extract_domain llms_txt_url
    let available :=
      buildAvailableUrls llms_domain (findHrefUrls llms_content ++ findTextUrls llms_content)
    if available = [] then .noUrls llms_txt_url
    else .listing llms_txt_url llms_domain available

/-! ## Registry mutation (`add_doc_source`, `remove_doc_source`) -/

/-- Result of `add_doc_source`. -/
inductive AddResult where
  | success (name url : Str)
  | validationError (url msg : Str)
deriving DecidableEq

/-- `add_doc_source`: the validating GET, then the append, then the
domain union (skipped once the wildcard is present). -/
def add_doc_source (env : Env) (st : RegState) (name llms_txt_url description : Str) :
    RegState × AddResult :=
  match env.httpGet llms_txt_url with
  | .error e => (st, .validationError llms_txt_url e)
  | .ok _ =>
    let st1 : RegState :=
      { st with doc_sources := st.doc_sources ++ [⟨some name, llms_txt_url, some description⟩] }
    let st2 : RegState :=
      if _is_http_or_https llms_txt_url = true ∧ (str "*") ∉ st1.domains then
        { st1 with domains := insert (extract_domain llms_txt_url) st1.domains }
      else st1
    (st2, .success name llms_txt_url)

/-- Result of `remove_doc_source`. -/
inductive RemoveResult where
  | removed (name url : Str)
  | notFound (name : Str) (available_names : List Str)
deriving DecidableEq

/-- The loop of `remove_doc_source`: pop the first entry whose stored
name equals the argument (`source.get("name") == name`; an absent name is
Python `None` and never equals the string argument). -/
def removeFirst (name : Str) : List DocSource → Option (DocSource × List DocSource)
  | [] => none
  | s :: rest =>
    if s.name = some name then some (s, rest)
    else
      match removeFirst name rest with
      | some (r, rest') => some (r, s :: rest')
      | none => none

/-- `remove_doc_source`. -/
def remove_doc_source (st : RegState) (name : Str) : RegState × RemoveResult :=
  match removeFirst name st.doc_sources with
  | some (rem, rest) => ({ st with doc_sources := rest }, .removed name rem.llms_txt)
  | none =>
    (st, .notFound name (st.doc_sources.map (fun s => s.name.getD (str "unnamed"))))

/-! ## Operation sequences and invariants -/

/-- One runtime mutation of the registry. -/
inductive RegOp where
  | add (name url description : Str)
  | remove (name : Str)

def applyOp (env : Env) (st : RegState) : RegOp → RegState
  | .add n u d => (add_doc_source env st n u d).1
  | .remove n => (remove_doc_source st n).1

def applyOps (env : Env) (st : RegState) (ops : List RegOp) : RegState :=
  ops.foldl (applyOp env) st

/-- Scheme acceptance of the `httpx` transport: `httpx` parses the URL
and lowercases its scheme before dispatching, so a GET can yield a
response exactly for URLs whose scheme lowercases to `http` or `https` —
including, unlike the case-sensitive `_is_http_or_https`, uppercase
spellings such as `HTTP://…`.  (`schemeSplit` already returns the
lowercased scheme, matching both CPython's `urlsplit` and `httpx`'s
normalization.) -/
def httpxSupportedScheme (u : Str) : Bool :=
  (schemeSplit u).1 = str "http" || (schemeSplit u).1 = str "https"

/-- Invariant I2: every local source's canonical path is allowed. -/
def LocalInv (env : Env) (st : RegState) : Prop :=
  ∀ s ∈ st.doc_sources, _is_http_or_https s.llms_txt = false →
    _normalize_path env.cwd s.llms_txt ∈ st.allowed_local_files

/-! ## Concrete instances used by witnesses and counterexamples -/

/-- A sample environment: every file exists and reads successfully, GETs
on http/https-prefixed URLs succeed, all other GETs fail. -/
def env0 : Env where
  cwd := str "/app"
  fsExists := fun _ => true
  readFile := fun _ => .ok (str "docs")
  httpGet := fun u =>
    if _is_http_or_https u = true then .ok (str "body") else .error (str "unsupported protocol")
  markdownify := id

def st4 : RegState := ⟨[⟨none, str "/srv/llms.txt", none⟩], ∅, {str "/srv/llms.txt"}⟩

/-! ## Helper lemmas -/

theorem extract_domain_length (u : Str) : 4 ≤ (extract_domain u).length := by
  have h1 : (str "://").length = 3 := rfl
  have h2 : (str "/").length = 1 := rfl
  simp only [extract_domain, List.length_append, h1, h2]
  omega

theorem extract_domain_ne_star (u : Str) : extract_domain u ≠ str "*" := by
  intro h
  have h4 := extract_domain_length u
  rw [h] at h4
  have h1 : (str "*").length = 1 := rfl
  omega

theorem isPrefixOf_exists {p l : Str} (h : p.isPrefixOf l = true) : ∃ t, l = p ++ t := by
  obtain ⟨t, ht⟩ := List.isPrefixOf_iff_prefix.mp h
  exact ⟨t, ht.symm⟩

theorem mem_takeWhile_true {p : Char → Bool} :
    ∀ {l : Str} {c : Char}, c ∈ l.takeWhile p → p c = true := by
  intro l
  induction l with
  | nil => intro c hc; simp [List.takeWhile] at hc
  | cons a t ih =>
    intro c hc
    rw [List.takeWhile_cons] at hc
    by_cases ha : p a = true
    · rw [if_pos ha] at hc
      rcases List.mem_cons.mp hc with h | h
      · rw [h]; exact ha
      · exact ih h
    · rw [if_neg ha] at hc
      simp at hc

theorem takeWhile_append_stop {p : Char → Bool} {x : Char} (hx : p x = false) :
    ∀ {l : Str}, (∀ c ∈ l, p c = true) → (l ++ [x]).takeWhile p = l := by
  intro l
  induction l with
  | nil => intro _; simp [List.takeWhile, hx]
  | cons a t ih =>
    intro hall
    rw [List.cons_append, List.takeWhile_cons, if_pos (hall a (List.mem_cons_self a t))]
    rw [ih (fun c hc => hall c (List.mem_cons_of_mem a hc))]

theorem netlocPart_mem {rest : Str} {c : Char} (h : c ∈ netlocPart rest) : netlocChar c = true := by
  unfold netlocPart at h
  split at h
  · exact mem_takeWhile_true h
  · simp at h

theorem netlocPart_roundtrip {n : Str} (hn : ∀ c ∈ n, netlocChar c = true) :
    netlocPart ('/' :: '/' :: (n ++ str "/")) = n := by
  unfold netlocPart
  rw [if_pos (show List.take 2 ('/' :: '/' :: (n ++ str "/")) = str "//" from rfl)]
  exact takeWhile_append_stop (by decide) hn

theorem extract_domain_http (rest : Str) :
    extract_domain (str "http:" ++ rest) =
      str "http:" ++ ('/' :: '/' :: (netlocPart rest ++ str "/")) := rfl

theorem extract_domain_https (rest : Str) :
    extract_domain (str "https:" ++ rest) =
      str "https:" ++ ('/' :: '/' :: (netlocPart rest ++ str "/")) := rfl

/-! ## C9 -/

/-- C9, counterexample: `extract_domain` is not idempotent on every URL.
On the scheme-relative URL `//example.com` (parsed with empty scheme and
netloc `example.com`, exactly as CPython does) the first application
yields `://example.com/`, whose re-parse has no scheme and no netloc,
yielding `:///`. -/
theorem mcpdoc_c9_counterexample :
    extract_domain (extract_domain (str "//example.com")) ≠
      extract_domain (str "//example.com") := by decide

/-- C9 (amended): `extract_domain` is idempotent on every URL carrying an
explicit `http:`/`https:` scheme — re-extracting from an extracted origin
returns the same string.  (The unamended claim fails only on references
without a parsed scheme, such as scheme-relative URLs.) -/
theorem mcpdoc_c9_amended : ∀ url : Str, _is_http_or_https url = true →
    extract_domain (extract_domain url) = extract_domain url := by
  intro url h
  unfold _is_http_or_https at h
  simp only [Bool.or_eq_true] at h
  rcases h with h1 | h1
  · obtain ⟨rest, rfl⟩ := isPrefixOf_exists h1
    rw [extract_domain_http, extract_domain_http,
      netlocPart_roundtrip (fun c hc => netlocPart_mem hc)]
  · obtain ⟨rest, rfl⟩ := isPrefixOf_exists h1
    rw [extract_domain_https, extract_domain_https,
      netlocPart_roundtrip (fun c hc => netlocPart_mem hc)]

/-- C9 witness for the amended theorem at a concrete URL. -/
theorem mcpdoc_c9_witness :
    extract_domain (extract_domain (str "https://example.com/docs/page")) =
      extract_domain (str "https://example.com/docs/page") :=
  mcpdoc_c9_amended (str "https://example.com/docs/page") (by decide)

theorem fetch_docs_local (env : Env) (st : RegState) (url : Str)
    (h : _is_http_or_https url = false) :
    fetch_docs env st url =
      if _normalize_path env.cwd url ∉ st.allowed_local_files then
        ⟨.localNotAllowedRaised (_normalize_path env.cwd url) st.allowed_local_files,
          false, false⟩
      else
        match env.readFile (_normalize_path env.cwd url) with
        | .ok content => ⟨.ok (env.markdownify content), false, true⟩
        | .error e => ⟨.readError e, false, true⟩ := by
  unfold fetch_docs
  rw [if_pos h]

theorem fetch_docs_remote (env : Env) (st : RegState) (url : Str)
    (h : _is_http_or_https url = true) :
    fetch_docs env st url =
      if (str "*") ∉ st.domains ∧ ¬ (∃ d ∈ st.domains, d.isPrefixOf url = true) then
        ⟨.originNotAllowed st.domains, false, false⟩
      else
        match env.httpGet url with
        | .ok body => ⟨.ok (env.markdownify body), true, false⟩
        | .error e => ⟨.httpError e, true, false⟩ := by
  unfold fetch_docs
  rw [if_neg (by simp [h])]

/-! ## C2 -/

/-- C2: a fetch of a local reference succeeds only if its normalized path
is in the allow-set; a disallowed path produces the `PathNotAllowed`
failure carrying the normalized path and the whole allow-set, with no
file open attempted and no GET issued. -/
theorem mcpdoc_c2 : ∀ (env : Env) (st : RegState) (url : Str),
    _is_http_or_https url = false →
    (_normalize_path env.cwd url ∉ st.allowed_local_files →
      fetch_docs env st url =
        ⟨.localNotAllowedRaised (_normalize_path env.cwd url) st.allowed_local_files,
          false, false⟩)
    ∧ (∀ t, (fetch_docs env st url).outcome = .ok t →
        _normalize_path env.cwd url ∈ st.allowed_local_files) := by
  intro env st url h
  rw [fetch_docs_local env st url h]
  constructor
  · intro hmem
    rw [if_pos hmem]
  · intro t hok
    by_cases hmem : _normalize_path env.cwd url ∈ st.allowed_local_files
    · exact hmem
    · rw [if_pos hmem] at hok
      simp at hok

/-- C2 witness: fetching `/etc/passwd` against a registry allowing only
`/srv/llms.txt` yields the raised `PathNotAllowed` outcome with no file
opened. -/
theorem mcpdoc_c2_witness :
    fetch_docs env0 st4 (str "/etc/passwd") =
      ⟨.localNotAllowedRaised (str "/etc/passwd") {str "/srv/llms.txt"}, false, false⟩ :=
  (mcpdoc_c2 env0 st4 (str "/etc/passwd") (by decide)).1 (by decide)

/-! ## C5 -/

/-- C5: when the validating GET of `add_doc_source` fails, the operation
returns the validation error and the registry state — source list,
domains and local allow-set alike — is exactly unchanged; the append and
the origin union happen only after a successful GET. -/
theorem mcpdoc_c5 : ∀ (env : Env) (st : RegState) (name url desc e : Str),
    env.httpGet url = .error e →
    add_doc_source env st name url desc = (st, .validationError url e) := by
  intro env st name url desc e hget
  unfold add_doc_source
  rw [hget]

/-- C5 witness: a URL whose GET fails (`ftp://x`) leaves the registry
untouched. -/
theorem mcpdoc_c5_witness :
    add_doc_source env0 st4 (str "n") (str "ftp://x") (str "") =
      (st4, .validationError (str "ftp://x") (str "unsupported protocol")) :=
  mcpdoc_c5 env0 st4 (str "n") (str "ftp://x") (str "") (str "unsupported protocol") rfl

/-! ## C4 -/

/-- The only constructor of `FetchOutcome` modelling a raised exception. -/
def FetchOutcome.isRaised : FetchOutcome → Bool
  | .localNotAllowedRaised _ _ => true
  | _ => false

/-- C4, counterexample: on a registry built from one local source, a
fetch of a disallowed local path raises a `ValueError` out of the tool
function instead of returning an error result, contradicting the claim
that no tool operation raises. -/
theorem mcpdoc_c4_counterexample :
    create_server env0 [⟨none, str "/srv/llms.txt", none⟩] [] = .ok st4 ∧
    (fetch_docs env0 st4 (str "/etc/passwd")).outcome.isRaised = true := by
  exact ⟨rfl, by decide⟩

/-- C4 (amended): every caller-visible failure is returned as a result
value except the disallowed-local-path check: `fetch_docs` raises a
`ValueError` exactly when the reference is local and its normalized path
is outside the allow-set.  (The discovery and mutation tools catch all
their exceptions; their result types contain no raising outcome.) -/
theorem mcpdoc_c4_amended : ∀ (env : Env) (st : RegState) (url : Str),
    (fetch_docs env st url).outcome.isRaised = true ↔
      (_is_http_or_https url = false ∧
        _normalize_path env.cwd url ∉ st.allowed_local_files) := by
  intro env st url
  by_cases h : _is_http_or_https url = true
  · rw [fetch_docs_remote env st url h]
    constructor
    · intro hr
      exfalso
      revert hr
      split
      · intro hr
        simp [FetchOutcome.isRaised] at hr
      · cases env.httpGet url <;> (intro hr; simp [FetchOutcome.isRaised] at hr)
    · intro ⟨hf, _⟩
      rw [h] at hf
      simp at hf
  · have h' : _is_http_or_https url = false := by
      cases hh : _is_http_or_https url
      · rfl
      · exact absurd hh h
    rw [fetch_docs_local env st url h']
    by_cases hmem : _normalize_path env.cwd url ∈ st.allowed_local_files
    · rw [if_neg (by simpa using hmem)]
      constructor
      · intro hr
        exfalso
        revert hr
        cases env.readFile (_normalize_path env.cwd url) <;>
          (intro hr; simp [FetchOutcome.isRaised] at hr)
      · intro ⟨_, hm⟩
        exact absurd hmem hm
    · rw [if_pos hmem]
      exact ⟨fun _ => ⟨h', hmem⟩, fun _ => rfl⟩

theorem removeFirst_eq (name : Str) :
    ∀ (l : List DocSource) (rem : DocSource) (rest : List DocSource),
      removeFirst name l = some (rem, rest) →
      rem.name = some name ∧ ∃ l₁ l₂, l = l₁ ++ rem :: l₂ ∧ rest = l₁ ++ l₂ := by
  intro l
  induction l with
  | nil => intro rem rest h; simp [removeFirst] at h
  | cons s t ih =>
    intro rem rest h
    unfold removeFirst at h
    split_ifs at h with hn
    · simp only [Option.some.injEq, Prod.mk.injEq] at h
      obtain ⟨h1, h2⟩ := h
      subst h1; subst h2
      exact ⟨hn, [], t, rfl, rfl⟩
    · cases hr : removeFirst name t with
      | none => rw [hr] at h; simp at h
      | some p =>
        obtain ⟨r, rest'⟩ := p
        rw [hr] at h
        simp only [Option.some.injEq, Prod.mk.injEq] at h
        obtain ⟨h1, h2⟩ := h
        obtain ⟨hname, l₁, l₂, hl, hrest⟩ := ih r rest' hr
        subst h1
        refine ⟨hname, s :: l₁, l₂, ?_, ?_⟩
        · rw [List.cons_append, ← hl]
        · rw [← h2, hrest, List.cons_append]

theorem removeFirst_none_iff (name : Str) :
    ∀ l : List DocSource, removeFirst name l = none ↔ ∀ s ∈ l, s.name ≠ some name := by
  intro l
  induction l with
  | nil => simp [removeFirst]
  | cons s t ih =>
    unfold removeFirst
    constructor
    · intro h x hx
      split_ifs at h with hn
      · cases hr : removeFirst name t with
        | none =>
          rcases List.mem_cons.mp hx with hxe | hxt
          · rw [hxe]; exact hn
          · exact (ih.mp hr) x hxt
        | some p => obtain ⟨r, rest'⟩ := p; rw [hr] at h; simp at h
    · intro hall
      rw [if_neg (hall s (List.mem_cons_self s t))]
      rw [ih.mpr (fun x hx => hall x (List.mem_cons_of_mem s hx))]

theorem add_doc_source_fst (env : Env) (st : RegState) (n u d : Str) :
    ((add_doc_source env st n u d).1.doc_sources = st.doc_sources ∨
      (add_doc_source env st n u d).1.doc_sources =
        st.doc_sources ++ [⟨some n, u, some d⟩]) ∧
    ((add_doc_source env st n u d).1.domains = st.domains ∨
      (add_doc_source env st n u d).1.domains = insert (extract_domain u) st.domains) ∧
    (add_doc_source env st n u d).1.allowed_local_files = st.allowed_local_files := by
  unfold add_doc_source
  cases env.httpGet u with
  | error e => exact ⟨Or.inl rfl, Or.inl rfl, rfl⟩
  | ok body =>
    dsimp only
    split_ifs with hc
    · exact ⟨Or.inr rfl, Or.inr rfl, rfl⟩
    · exact ⟨Or.inr rfl, Or.inl rfl, rfl⟩

theorem remove_doc_source_fst (st : RegState) (n : Str) :
    ((remove_doc_source st n).1.domains = st.domains ∧
      (remove_doc_source st n).1.allowed_local_files = st.allowed_local_files) ∧
    ∀ s ∈ (remove_doc_source st n).1.doc_sources, s ∈ st.doc_sources := by
  unfold remove_doc_source
  cases hr : removeFirst n st.doc_sources with
  | none => exact ⟨⟨rfl, rfl⟩, fun s hs => hs⟩
  | some p =>
    obtain ⟨rem, rest⟩ := p
    refine ⟨⟨rfl, rfl⟩, ?_⟩
    intro s hs
    obtain ⟨_, l₁, l₂, hl, hrest⟩ := removeFirst_eq n st.doc_sources rem rest hr
    dsimp only at hs
    rw [hrest] at hs
    rw [hl]
    rcases List.mem_append.mp hs with h | h
    · exact List.mem_append.mpr (Or.inl h)
    · exact List.mem_append.mpr (Or.inr (List.mem_cons_of_mem rem h))

theorem create_server_ok {env : Env} {srcs : List DocSource} {ad : List Str} {st : RegState}
    (h : create_server env srcs ad = .ok st) :
    st.doc_sources = srcs ∧
    st.domains = (if ad ≠ [] then
        if (str "*") ∈ ad then ({str "*"} : Finset Str)
        else ((srcs.filter (fun e => _is_http_or_https e.llms_txt)).map
            (fun e => extract_domain e.llms_txt)).toFinset ∪ ad.toFinset
      else ((srcs.filter (fun e => _is_http_or_https e.llms_txt)).map
            (fun e => extract_domain e.llms_txt)).toFinset) ∧
    st.allowed_local_files =
      ((srcs.filter (fun e => !(_is_http_or_https e.llms_txt))).map
        (fun e => _normalize_path env.cwd e.llms_txt)).toFinset := by
  unfold create_server at h
  simp only [] at h
  cases hf : List.find? (fun e => !env.fsExists (_normalize_path env.cwd e.llms_txt))
      (List.filter (fun e => !_is_http_or_https e.llms_txt) srcs) with
  | some e =>
    rw [hf] at h
    exact Except.noConfusion h
  | none =>
    rw [hf] at h
    simp only [Except.ok.injEq] at h
    subst h
    exact ⟨rfl, rfl, rfl⟩

theorem star_notin_map_extract (l : List DocSource) :
    (str "*") ∉ (l.map (fun e => extract_domain e.llms_txt)).toFinset := by
  rw [List.mem_toFinset]
  intro hmem
  obtain ⟨e, _, he⟩ := List.mem_map.mp hmem
  exact extract_domain_ne_star _ he

/-! ## C1 -/

/-- C1: without the wildcard sentinel the marker never enters `domains`
(at construction, and through any add/remove operation), and a remote
fetch against a wildcard-free registry either returns the
`OriginNotAllowed` error carrying the whole allow-set — issuing no GET —
when no allowed origin is a prefix of the URL, or succeeds only when some
allowed origin is a prefix. -/
theorem mcpdoc_c1 :
    (∀ (env : Env) (srcs : List DocSource) (ad : List Str) (st : RegState),
        (str "*") ∉ ad → create_server env srcs ad = .ok st → (str "*") ∉ st.domains)
    ∧ (∀ (env : Env) (st : RegState) (op : RegOp),
        (str "*") ∉ st.domains → (str "*") ∉ (applyOp env st op).domains)
    ∧ (∀ (env : Env) (st : RegState) (url : Str),
        (str "*") ∉ st.domains → _is_http_or_https url = true →
        ((∀ d ∈ st.domains, d.isPrefixOf url = false) →
            fetch_docs env st url = ⟨.originNotAllowed st.domains, false, false⟩)
        ∧ ∀ t, (fetch_docs env st url).outcome = .ok t →
            ∃ d ∈ st.domains, d.isPrefixOf url = true) := by
  refine ⟨?_, ?_, ?_⟩
  · intro env srcs ad st had hok
    obtain ⟨_, hd, _⟩ := create_server_ok hok
    by_cases h1 : ad ≠ []
    · by_cases h2 : (str "*") ∈ ad
      · exact absurd h2 had
      · rw [hd, if_pos h1, if_neg h2]
        intro hmem
        rcases Finset.mem_union.mp hmem with hm | hm
        · exact star_notin_map_extract _ hm
        · exact had (List.mem_toFinset.mp hm)
    · rw [hd, if_neg h1]
      exact star_notin_map_extract _
  · intro env st op hstar
    cases op with
    | add n u d =>
      show (str "*") ∉ (add_doc_source env st n u d).1.domains
      rcases (add_doc_source_fst env st n u d).2.1 with h | h <;> rw [h]
      · exact hstar
      · intro hmem
        rcases Finset.mem_insert.mp hmem with hm | hm
        · exact extract_domain_ne_star u hm.symm
        · exact hstar hm
    | remove n =>
      show (str "*") ∉ (remove_doc_source st n).1.domains
      rw [(remove_doc_source_fst st n).1.1]
      exact hstar
  · intro env st url hstar h
    rw [fetch_docs_remote env st url h]
    constructor
    · intro hnone
      rw [if_pos ⟨hstar, by
        rintro ⟨d, hd, hp⟩
        rw [hnone d hd] at hp
        exact Bool.noConfusion hp⟩]
    · intro t hok
      by_cases hc : (str "*") ∉ st.domains ∧ ¬ (∃ d ∈ st.domains, d.isPrefixOf url = true)
      · rw [if_pos hc] at hok
        simp at hok
      · rcases not_and_or.mp hc with hc1 | hc2
        · exact absurd hstar hc1
        · exact not_not.mp hc2

/-- C1 witness: a registry allowing only `https://e.com/` rejects
`https://other.com/x` with the `OriginNotAllowed` outcome, issuing no
GET. -/
theorem mcpdoc_c1_witness :
    fetch_docs env0 ⟨[], {str "https://e.com/"}, ∅⟩ (str "https://other.com/x") =
      ⟨.originNotAllowed {str "https://e.com/"}, false, false⟩ :=
  (mcpdoc_c1.2.2 env0 ⟨[], {str "https://e.com/"}, ∅⟩ (str "https://other.com/x")
    (by decide) (by decide)).1 (by decide)

/-! ## C6 -/

theorem applyOp_mono (env : Env) (st : RegState) (op : RegOp) :
    st.domains ⊆ (applyOp env st op).domains ∧
    (applyOp env st op).allowed_local_files = st.allowed_local_files := by
  cases op with
  | add n u d =>
    show st.domains ⊆ (add_doc_source env st n u d).1.domains ∧
      (add_doc_source env st n u d).1.allowed_local_files = st.allowed_local_files
    obtain ⟨_, hdom, hloc⟩ := add_doc_source_fst env st n u d
    refine ⟨?_, hloc⟩
    rcases hdom with h | h <;> rw [h]
    exact Finset.subset_insert _ _
  | remove n =>
    show st.domains ⊆ (remove_doc_source st n).1.domains ∧
      (remove_doc_source st n).1.allowed_local_files = st.allowed_local_files
    obtain ⟨⟨hdom, hloc⟩, _⟩ := remove_doc_source_fst st n
    rw [hdom, hloc]
    exact ⟨Finset.Subset.refl _, rfl⟩

/-- C6: over any sequence of add/remove operations the allowed-origins
set only grows (it is a superset of its previous value) and the
allowed-local-paths set is exactly unchanged; in particular removing a
source never revokes an origin or a path. -/
theorem mcpdoc_c6 : ∀ (env : Env) (st : RegState) (ops : List RegOp),
    st.domains ⊆ (applyOps env st ops).domains ∧
    (applyOps env st ops).allowed_local_files = st.allowed_local_files := by
  intro env st ops
  induction ops generalizing st with
  | nil => exact ⟨Finset.Subset.refl _, rfl⟩
  | cons op ops ih =>
    have h1 := applyOp_mono env st op
    have h2 := ih (applyOp env st op)
    exact ⟨h1.1.trans h2.1, h2.2.trans h1.2⟩

/-! ## C7 -/

/-- C7: a wildcard among the configured extra domains collapses
`domains` to exactly `{*}` at construction; `add_doc_source` leaves a
wildcard set exactly `{*}`; and while `*` is present, a remote fetch is
never rejected for origin reasons — the GET is always attempted and the
outcome is never `OriginNotAllowed`. -/
theorem mcpdoc_c7 :
    (∀ (env : Env) (srcs : List DocSource) (ad : List Str) (st : RegState),
        (str "*") ∈ ad → create_server env srcs ad = .ok st →
        st.domains = {str "*"})
    ∧ (∀ (env : Env) (st : RegState) (n u d : Str),
        st.domains = {str "*"} → (add_doc_source env st n u d).1.domains = {str "*"})
    ∧ (∀ (env : Env) (st : RegState) (url : Str),
        (str "*") ∈ st.domains → _is_http_or_https url = true →
        (fetch_docs env st url).didGet = true ∧
          ∀ s, (fetch_docs env st url).outcome ≠ .originNotAllowed s) := by
  refine ⟨?_, ?_, ?_⟩
  · intro env srcs ad st had hok
    obtain ⟨_, hd, _⟩ := create_server_ok hok
    rw [hd, if_pos (List.ne_nil_of_mem had), if_pos had]
  · intro env st n u d hdom
    unfold add_doc_source
    cases env.httpGet u with
    | error e => exact hdom
    | ok body =>
      dsimp only
      rw [if_neg (by
        rintro ⟨_, hns⟩
        exact hns (hdom ▸ Finset.mem_singleton_self _))]
      exact hdom
  · intro env st url hstar h
    rw [fetch_docs_remote env st url h,
      if_neg (fun hc => hc.1 hstar)]
    cases env.httpGet url with
    | ok body => exact ⟨rfl, fun s hs => FetchOutcome.noConfusion hs⟩
    | error e => exact ⟨rfl, fun s hs => FetchOutcome.noConfusion hs⟩

/-- C7 witness: with `domains = {*}`, fetching an arbitrary remote URL
attempts the GET (it is not rejected for origin reasons). -/
theorem mcpdoc_c7_witness :
    (fetch_docs env0 ⟨[], {str "*"}, ∅⟩ (str "https://anywhere.test/x")).didGet = true :=
  (mcpdoc_c7.2.2 env0 ⟨[], {str "*"}, ∅⟩ (str "https://anywhere.test/x")
    (by decide) (by decide)).1

/-! ## C8 -/

theorem add_doc_source_ok_fields (env : Env) (st : RegState) (n u d body : Str)
    (hb : env.httpGet u = .ok body) :
    (add_doc_source env st n u d).1.doc_sources =
        st.doc_sources ++ [⟨some n, u, some d⟩] ∧
    (add_doc_source env st n u d).1.allowed_local_files = st.allowed_local_files := by
  unfold add_doc_source
  rw [hb]
  dsimp only
  split_ifs <;> exact ⟨rfl, rfl⟩

theorem create_server_localInv {env : Env} {srcs : List DocSource} {ad : List Str}
    {st : RegState} (h : create_server env srcs ad = .ok st) : LocalInv env st := by
  obtain ⟨hsrc, _, hloc⟩ := create_server_ok h
  intro s hs hl
  rw [hloc, List.mem_toFinset]
  refine List.mem_map_of_mem _ ?_
  rw [List.mem_filter]
  exact ⟨hsrc ▸ hs, by rw [hl]; rfl⟩

theorem remove_doc_source_localInv {env : Env} {st : RegState} (h : LocalInv env st)
    (n : Str) : LocalInv env (remove_doc_source st n).1 := by
  obtain ⟨⟨_, hloc⟩, hsub⟩ := remove_doc_source_fst st n
  intro s hs hl
  rw [hloc]
  exact h s (hsub s hs) hl

def envX : Env where
  cwd := str "/app"
  fsExists := fun _ => true
  readFile := fun _ => .ok (str "docs")
  httpGet := fun u =>
    if httpxSupportedScheme u = true then .ok (str "body")
    else .error (str "unsupported protocol")
  markdownify := id

def stX : RegState := ⟨[], ∅, ∅⟩

/-- C8, failing trace.  Construction establishes the invariant
(`create_server_localInv`) and removals preserve it
(`remove_doc_source_localInv`), but `add_doc_source` can break it: the
classifier `_is_http_or_https` is case-sensitive while the `httpx`
transport lowercases schemes (`envX` accepts exactly the schemes `httpx`
accepts), so the validating GET on `HTTP://e.com/llms.txt` succeeds, the
source is appended, and — being classified non-remote — its origin is
not unioned and its normalized path never enters `allowed_local_files`.
The resulting reachable state holds a local-classified source whose
canonical path is outside the local allow-set, violating I2. -/
theorem mcpdoc_c8_bug :
    create_server envX [] [] = .ok stX ∧
    _is_http_or_https (str "HTTP://e.com/llms.txt") = false ∧
    envX.httpGet (str "HTTP://e.com/llms.txt") = .ok (str "body") ∧
    ¬ LocalInv envX
      (applyOps envX stX [.add (str "up") (str "HTTP://e.com/llms.txt") (str "")]) := by
  refine ⟨rfl, by decide, rfl, ?_⟩
  intro h
  have hmem := h ⟨some (str "up"), str "HTTP://e.com/llms.txt", some (str "")⟩
    (by decide) (by decide)
  revert hmem
  decide

/-! ## C10 -/

theorem removeFirst_count_none (name : Str) (l : List DocSource) (s : DocSource)
    (hs : s.name = none) :
    ∀ rem rest, removeFirst name l = some (rem, rest) → rest.count s = l.count s := by
  intro rem rest h
  obtain ⟨hname, l₁, l₂, hl, hrest⟩ := removeFirst_eq name l rem rest h
  subst hl
  subst hrest
  have hne : (rem == s) = false := by
    refine beq_eq_false_iff_ne.mpr ?_
    intro heq
    rw [heq, hs] at hname
    exact Option.noConfusion hname
  rw [List.count_append, List.count_append, List.count_cons, hne]
  simp

/-- C10: `remove_doc_source` can only ever remove a source whose stored
name equals the argument — a source configured without a name (`none`) is
unreachable by removal (its multiplicity in the list is preserved) — and
when no source matches, the not-found result lists every source's name,
with nameless sources shown as `unnamed`. -/
theorem mcpdoc_c10 : ∀ (st : RegState) (name : Str),
    (∀ rem rest, removeFirst name st.doc_sources = some (rem, rest) →
        rem.name = some name)
    ∧ (∀ s : DocSource, s.name = none →
        (remove_doc_source st name).1.doc_sources.count s = st.doc_sources.count s)
    ∧ ((∀ s ∈ st.doc_sources, s.name ≠ some name) →
        remove_doc_source st name =
          (st, .notFound name
            (st.doc_sources.map (fun s => s.name.getD (str "unnamed"))))) := by
  intro st name
  refine ⟨?_, ?_, ?_⟩
  · intro rem rest h
    exact (removeFirst_eq name st.doc_sources rem rest h).1
  · intro s hs
    unfold remove_doc_source
    cases hr : removeFirst name st.doc_sources with
    | none => rfl
    | some p =>
      obtain ⟨rem, rest⟩ := p
      dsimp only
      exact removeFirst_count_none name st.doc_sources s hs rem rest hr
  · intro hall
    unfold remove_doc_source
    rw [(removeFirst_none_iff name st.doc_sources).mpr hall]

def st10 : RegState :=
  ⟨[⟨none, str "/a", none⟩, ⟨some (str "b"), str "https://b.com/x", none⟩], ∅, ∅⟩

/-- C10 witness: removing the absent name `ghost` returns the not-found
result listing `unnamed` and `b`, leaving the state unchanged. -/
theorem mcpdoc_c10_witness :
    remove_doc_source st10 (str "ghost") =
      (st10, .notFound (str "ghost") [str "unnamed", str "b"]) :=
  (mcpdoc_c10 st10 (str "ghost")).2.2 (by decide)

/-! ## C3 -/

theorem buildAvailableUrls_aux (d : Str) (found : List Str) :
    ∀ acc : List Str, (∀ u ∈ acc, d.isPrefixOf u = true) →
      ∀ u ∈ found.foldl
        (fun acc u =>
          let url := cleanUrl u
          if (str "http").isPrefixOf url = true ∧ url ∉ acc then
            if d.isPrefixOf url = true then acc ++ [url] else acc
          else acc) acc, d.isPrefixOf u = true := by
  induction found with
  | nil => exact fun acc hacc u hu => hacc u hu
  | cons x t ih =>
    intro acc hacc u hu
    rw [List.foldl_cons] at hu
    refine ih _ ?_ u hu
    intro v hv
    dsimp only at hv
    by_cases h1 : (str "http").isPrefixOf (cleanUrl x) = true ∧ cleanUrl x ∉ acc
    · rw [if_pos h1] at hv
      by_cases h2 : d.isPrefixOf (cleanUrl x) = true
      · rw [if_pos h2] at hv
        rcases List.mem_append.mp hv with hm | hm
        · exact hacc v hm
        · rw [List.mem_singleton.mp hm]
          exact h2
      · rw [if_neg h2] at hv
        exact hacc v hv
    · rw [if_neg h1] at hv
      exact hacc v hv

theorem buildAvailableUrls_sameOrigin (d : Str) (found : List Str) :
    ∀ u ∈ buildAvailableUrls d found, d.isPrefixOf u = true := by
  intro u hu
  refine buildAvailableUrls_aux d found [] ?_ u hu
  intro v hv
  simp at hv

theorem smart_select_fetchTarget {lu d q : Str} {avail : List Str} {t : Str}
    (h : smart_select lu d q avail = .fetchTarget t) : d.isPrefixOf t = true := by
  unfold smart_select at h
  by_cases h1 : avail = []
  · rw [if_pos h1] at h
    exact SmartStep.noConfusion h
  · rw [if_neg h1] at h
    by_cases h2 : (str "/").isPrefixOf q = true ∨ (str "http").isPrefixOf q = true
    · rw [if_pos h2] at h
      cases hf : avail.filter (fun u => strContains q u) with
      | nil =>
        rw [hf] at h
        exact SmartStep.noConfusion h
      | cons target rest =>
        rw [hf] at h
        dsimp only at h
        by_cases h3 : d.isPrefixOf target = false
        · rw [if_pos h3] at h
          exact SmartStep.noConfusion h
        · rw [if_neg h3] at h
          injection h with h4
          rw [← h4]
          cases hx : d.isPrefixOf target
          · exact absurd hx h3
          · rfl
    · rw [if_neg h2] at h
      exact SmartStep.noConfusion h

theorem smart_select_reply {lu d q : Str} {avail : List Str} {r : SmartResult}
    (h : smart_select lu d q avail = .reply r) : ∀ t body, r ≠ .content t body := by
  unfold smart_select at h
  by_cases h1 : avail = []
  · rw [if_pos h1] at h
    injection h with h'
    rw [← h']
    intro t body hc
    exact SmartResult.noConfusion hc
  · rw [if_neg h1] at h
    by_cases h2 : (str "/").isPrefixOf q = true ∨ (str "http").isPrefixOf q = true
    · rw [if_pos h2] at h
      cases hf : avail.filter (fun u => strContains q u) with
      | nil =>
        rw [hf] at h
        injection h with h'
        rw [← h']
        intro t body hc
        exact SmartResult.noConfusion hc
      | cons target rest =>
        rw [hf] at h
        dsimp only at h
        by_cases h3 : d.isPrefixOf target = false
        · rw [if_pos h3] at h
          injection h with h'
          rw [← h']
          intro t body hc
          exact SmartResult.noConfusion hc
        · rw [if_neg h3] at h
          exact SmartStep.noConfusion h
    · rw [if_neg h2] at h
      injection h with h'
      rw [← h']
      intro t body hc
      exact SmartResult.noConfusion hc

theorem query_smart_content {env : Env} {lu q t body : Str}
    (h : query_external_docs_smart env lu q = .content t body) :
    (extract_domain lu).isPrefixOf t = true := by
  unfold query_external_docs_smart at h
  cases hg : env.httpGet lu with
  | error e =>
    rw [hg] at h
    exact SmartResult.noConfusion h
  | ok content =>
    rw [hg] at h
    dsimp only at h
    cases hs : smart_select lu (extract_domain lu) q
        (buildAvailableUrls (extract_domain lu)
          (findHrefUrls content ++ findTextUrls content)) with
    | reply r =>
      rw [hs] at h
      dsimp only at h
      exact absurd h (smart_select_reply hs t body)
    | fetchTarget target =>
      rw [hs] at h
      dsimp only at h
      cases hg2 : env.httpGet target with
      | error e =>
        rw [hg2] at h
        exact SmartResult.noConfusion h
      | ok b2 =>
        rw [hg2] at h
        dsimp only at h
        injection h with h1 h2
        rw [← h1]
        exact smart_select_fetchTarget hs

theorem list_external_docs_listing {env : Env} {lu lu' d : Str} {urls : List Str}
    (h : list_external_docs env lu = .listing lu' d urls) :
    d = extract_domain lu ∧ ∀ u ∈ urls, (extract_domain lu).isPrefixOf u = true := by
  unfold list_external_docs at h
  cases hg : env.httpGet lu with
  | error e =>
    rw [hg] at h
    exact ListDocsResult.noConfusion h
  | ok content =>
    rw [hg] at h
    dsimp only at h
    by_cases hav : buildAvailableUrls (extract_domain lu)
        (findHrefUrls content ++ findTextUrls content) = []
    · rw [if_pos hav] at h
      exact ListDocsResult.noConfusion h
    · rw [if_neg hav] at h
      injection h with h1 h2 h3
      subst h2
      subst h3
      exact ⟨rfl, buildAvailableUrls_sameOrigin _ _⟩

/-- C3: the discovery tools only ever surface candidates that start with
the index document's own origin — independently of the registry's
`domains` set, which neither tool consults: (1) every URL in the shared
candidate filter's output starts with the index origin; (2) the selection
step of `query_external_docs_smart`, even over an arbitrary
(possibly mutated) candidate list, only decides to fetch a target that
passes the same-origin re-check; (3) every URL listed by
`list_external_docs` starts with the index origin; (4) whenever
`query_external_docs_smart` returns fetched content, the fetched target
started with the index origin. -/
theorem mcpdoc_c3 :
    (∀ (d : Str) (found : List Str),
        ∀ u ∈ buildAvailableUrls d found, d.isPrefixOf u = true)
    ∧ (∀ (lu d q : Str) (avail : List Str) (t : Str),
        smart_select lu d q avail = .fetchTarget t → d.isPrefixOf t = true)
    ∧ (∀ (env : Env) (lu lu' d : Str) (urls : List Str),
        list_external_docs env lu = .listing lu' d urls →
        d = extract_domain lu ∧ ∀ u ∈ urls, (extract_domain lu).isPrefixOf u = true)
    ∧ (∀ (env : Env) (lu q t body : Str),
        query_external_docs_smart env lu q = .content t body →
        (extract_domain lu).isPrefixOf t = true) :=
  ⟨buildAvailableUrls_sameOrigin,
    fun _ _ _ _ _ h => smart_select_fetchTarget h,
    fun _ _ _ _ _ h => list_external_docs_listing h,
    fun _ _ _ _ _ h => query_smart_content h⟩

/-- C3 witness: a same-origin candidate surviving the filter indeed
starts with the index origin. -/
theorem mcpdoc_c3_witness :
    (str "https://x.com/").isPrefixOf (str "https://x.com/a") = true :=
  mcpdoc_c3.1 (str "https://x.com/") [str "https://x.com/a"]
    (str "https://x.com/a") (by decide)
